import Mathlib

/-!
Verification of the dependency-graph migration sequencer and the historical
encoder of the `ucx` repository.

The sequencer core (`MigrationSequencer` in
`databricks/labs/ucx/sequencing/sequencing.py`) is not part of the source
tree available here; only its unit test is.  Following the specification,
all sequencer definitions below are therefore modelled from the spec
(sections 2-4, 6-8 of `spec.md`): the Node Registry primitive
`ensureNode`, the Edge Store primitive `addReference`, the type-specific
registrars, and the Linearizer `generateSteps`.

The historical encoder (`HistoricalEncoder` in
`databricks/labs/ucx/progress/history.py`) is embedded from the source.
-/

namespace Sequencer

/-- Modelled from the spec: the enumerated object-kind tag of a node
(spec section 3 "object kind: enumerated tag"; section 9 "model as a closed
set of tagged variants").  The missing source file dispatches per kind. -/
inductive ObjectKind where
  | JOB
  | TASK
  | CLUSTER
  | PIPELINE
  | TABLE
  | SCHEMA
  | CATALOG
deriving DecidableEq, Repr

/-- Modelled from the spec: a node identity, `(object kind, object id)`
(spec section 3). -/
structure NodeKey where
  objectType : ObjectKind
  objectId : String
deriving DecidableEq, Repr

/-- Modelled from the spec: a registered node with its optional display
name and its immutable first-discovery sequence number (spec section 3). -/
structure MigrationNode where
  key : NodeKey
  objectName : Option String
  seq : Nat
deriving DecidableEq, Repr

/-- Modelled from the spec: one output step of the Linearizer
(spec sections 3 and 6: `Step { object_type, object_id, object_name,
step_number }`). -/
structure MigrationStep where
  objectType : ObjectKind
  objectId : String
  objectName : Option String
  stepNumber : Nat
deriving DecidableEq, Repr

/-- Modelled from the spec: the sequencer state.  `nodes` is the Node
Registry in discovery order, `edges` the Edge Store in insertion order,
and `stepOrder` the persistent step-number assignment (node keys listed in
ascending assigned step number), which survives between `generate_steps()`
calls (spec section 4.4: re-running never renumbers existing steps). -/
structure MigrationSequencer where
  nodes : List MigrationNode
  edges : List (NodeKey × NodeKey)
  stepOrder : List NodeKey
deriving Repr

/-- Modelled from the spec: a freshly constructed sequencer with no
registrations (spec section 3 lifecycle). -/
def emptySequencer : MigrationSequencer := ⟨[], [], []⟩

/-- The node identities currently present in the registry. -/
def nodeKeys (st : MigrationSequencer) : List NodeKey :=
  st.nodes.map (fun n => n.key)

/-- Look up the display name currently recorded for a node identity. -/
def nodeName (st : MigrationSequencer) (k : NodeKey) : Option String :=
  match st.nodes.find? (fun n => decide (n.key = k)) with
  | some n => n.objectName
  | none => none

/-- Modelled from the spec: `ensure_node(kind, id, name)` of the Node
Registry (spec section 4.1): returns the existing node for the identity if
present — updating the display name when a new one is supplied (last write
wins) — otherwise creates it with the next discovery sequence number. -/
def ensureNode (st : MigrationSequencer) (k : NodeKey) (name : Option String) :
    MigrationSequencer :=
  match st.nodes.find? (fun n => decide (n.key = k)) with
  | some _ =>
    match name with
    | none => st
    | some nm =>
      { st with nodes := st.nodes.map (fun n =>
          if n.key = k then { n with objectName := some nm } else n) }
  | none =>
    { st with nodes := st.nodes ++ [{ key := k, objectName := name, seq := st.nodes.length }] }

/-- Modelled from the spec: `add_reference(from, to)` of the Edge Store
(spec section 4.2): implicitly ensures the target node (forward-reference
placeholder, spec section 3), and records the directed edge; adding the
same edge twice is a no-op. -/
def addReference (st : MigrationSequencer) (src tgt : NodeKey) : MigrationSequencer :=
  let st' := ensureNode st tgt none
  if (src, tgt) ∈ st'.edges then st'
  else { st' with edges := st'.edges ++ [(src, tgt)] }

/-- Modelled from the spec: `outgoing(node)` of the Edge Store
(spec section 4.2): targets of the node's outgoing edges in edge-insertion
order. -/
def outgoing (edges : List (NodeKey × NodeKey)) (k : NodeKey) : List NodeKey :=
  (edges.filter (fun e => decide (e.1 = k))).map (fun e => e.2)

/-- Auxiliary measure fact for the traversal: visiting a yet-unvisited
element of the universe strictly shrinks the count of unvisited universe
elements. -/
theorem filter_visited_append_lt {α : Type} [DecidableEq α]
    (l visited : List α) (k : α) (hkl : k ∈ l) (hkv : ¬ k ∈ visited) :
    (l.filter (fun x => decide (¬ x ∈ visited ++ [k]))).length <
    (l.filter (fun x => decide (¬ x ∈ visited))).length := by
  have heq : l.filter (fun x => decide (¬ x ∈ visited ++ [k])) =
      (l.filter (fun x => decide (¬ x ∈ visited))).filter (fun x => decide (¬ x = k)) := by
    rw [List.filter_filter]
    apply List.filter_congr
    intro x _
    by_cases h1 : x ∈ visited <;> by_cases h2 : x = k <;> simp [h1, h2]
  rw [heq]
  apply List.length_filter_lt_length_iff_exists.mpr
  refine ⟨k, List.mem_filter.mpr ⟨hkl, by simp [hkv]⟩, by simp⟩

/-- Modelled from the spec: the Linearizer's depth-first traversal
(spec section 4.4), written with an explicit work stack and visited list
(spec section 9 "explicit visited bitset/array ... and an explicit work
stack").  On first arrival a node is appended to `visited` (pre-order)
and its outgoing targets are pushed; an already-visited node is skipped
without recursing.  `U` is the universe of registered node keys; in every
reachable sequencer state all edge targets are registered (forward
references materialize placeholder nodes), so the membership guard on `U`
never fires there — it only bounds the recursion. -/
def traverse (U : List NodeKey) (edges : List (NodeKey × NodeKey)) :
    List NodeKey → List NodeKey → List NodeKey
  | [], visited => visited
  | k :: rest, visited =>
    if k ∈ visited ∨ ¬ k ∈ U then
      traverse U edges rest visited
    else
      traverse U edges (outgoing edges k ++ rest) (visited ++ [k])
termination_by stack visited =>
  ((U.filter (fun x => decide (¬ x ∈ visited))).length, stack.length)
decreasing_by
  · apply Prod.Lex.right
    simp
  · apply Prod.Lex.left
    have hk : ¬ k ∈ visited ∧ k ∈ U := by
      rcases not_or.mp (by assumption) with ⟨h1, h2⟩
      exact ⟨h1, not_not.mp h2⟩
    exact filter_visited_append_lt U visited k hk.2 hk.1

/-- The identity carried by a produced step. -/
def stepKey (s : MigrationStep) : NodeKey :=
  ⟨s.objectType, s.objectId⟩

/-- Modelled from the spec: building a `Step` record for the node key `k`
assigned the (0-based) position `i`, so with step number `i + 1`
(spec section 3: step numbers are positive, strictly increasing). -/
def stepOf (st : MigrationSequencer) (i : Nat) (k : NodeKey) : MigrationStep :=
  { objectType := k.objectType, objectId := k.objectId,
    objectName := nodeName st k, stepNumber := i + 1 }

/-- Steps for the listed keys, numbering from 0-based position `i`. -/
def stepsFrom (st : MigrationSequencer) : Nat → List NodeKey → List MigrationStep
  | _, [] => []
  | i, k :: ks => stepOf st i k :: stepsFrom st (i + 1) ks

/-- Modelled from the spec: the pre-order reached by one full traversal of
the Linearizer, starting from every registered node as a root candidate in
ascending discovery order (spec section 4.4). -/
def traversalOrder (st : MigrationSequencer) : List NodeKey :=
  traverse (nodeKeys st) st.edges (nodeKeys st) []

/-- Modelled from the spec: the step-number assignment after one
`generate_steps()` call — previously assigned step numbers are reused, and
nodes newly reached by the fresh traversal are appended with continuing
numbers (spec section 4.4). -/
def planOrder (st : MigrationSequencer) : List NodeKey :=
  st.stepOrder ++ (traversalOrder st).filter (fun k => decide (¬ k ∈ st.stepOrder))

/-- Modelled from the spec: the Linearizer `generate_steps()`
(spec section 4.4): returns the `Step` records ordered by step number
ascending, together with the sequencer carrying the updated persistent
step-number assignment. -/
def generateSteps (st : MigrationSequencer) : List MigrationStep × MigrationSequencer :=
  (stepsFrom st 0 (planOrder st), { st with stepOrder := planOrder st })

/-- Modelled from the spec: descriptor of one workflow task — its key
within the owning job and the id of the cluster it is pinned to, if any
(spec section 6 "register task"). -/
structure TaskDesc where
  taskKey : String
  existingClusterId : Option String
deriving DecidableEq, Repr

/-- Modelled from the spec: the registration surface — one call per object
kind (spec section 6, representative set). -/
inductive RegistrarCall where
  | workflowTask (jobId : String) (jobName : Option String) (task : TaskDesc)
  | cluster (clusterId : String) (clusterName : Option String)
  | pipeline (pipelineId : String) (pipelineName : Option String)
  | table (catalog schema table : String)
deriving DecidableEq, Repr

/-- Modelled from the spec: a task node's object id is its task key within
its owning job (spec section 4.3 item 1). -/
def taskNodeId (jobId taskKey : String) : String :=
  jobId ++ "/" ++ taskKey

/-- The object-id strings a registrar call supplies, which the call
validates to be non-empty (spec section 7 "Invalid identity"). -/
def callObjectIds : RegistrarCall → List String
  | .workflowTask jobId _ task =>
    jobId :: task.taskKey :: (match task.existingClusterId with
      | some cid => [cid]
      | none => [])
  | .cluster cid _ => [cid]
  | .pipeline pid _ => [pid]
  | .table c s t => [c, s, t]

/-- Modelled from the spec: registrar identity validation — every supplied
object id must be non-empty (spec section 7: "a registrar is called with
an empty or malformed object id/kind — fails fast"; object kinds are an
enumerated tag and hence cannot be malformed in this model). -/
def callValid (c : RegistrarCall) : Bool :=
  (callObjectIds c).all (fun s => !(s == ""))

/-- Modelled from the spec: the effect of a validated registrar call on
the graph, expressed with the two shared primitives `ensureNode` and
`addReference` (spec sections 4.3 and 6): the job/task registrar ensures
the job node, the task node, an edge job→task and — when the task pins a
cluster — an edge task→cluster; the table registrar ensures the table and
edges table→schema and schema→catalog. -/
def rawApply (st : MigrationSequencer) : RegistrarCall → MigrationSequencer
  | .workflowTask jobId jobName task =>
    let jobKey : NodeKey := ⟨.JOB, jobId⟩
    let tKey : NodeKey := ⟨.TASK, taskNodeId jobId task.taskKey⟩
    let st1 := ensureNode st jobKey jobName
    let st2 := ensureNode st1 tKey (some task.taskKey)
    let st3 := addReference st2 jobKey tKey
    match task.existingClusterId with
    | some cid => addReference st3 tKey ⟨.CLUSTER, cid⟩
    | none => st3
  | .cluster cid name => ensureNode st ⟨.CLUSTER, cid⟩ name
  | .pipeline pid name => ensureNode st ⟨.PIPELINE, pid⟩ name
  | .table c s t =>
    let tblKey : NodeKey := ⟨.TABLE, c ++ "." ++ s ++ "." ++ t⟩
    let schKey : NodeKey := ⟨.SCHEMA, c ++ "." ++ s⟩
    let catKey : NodeKey := ⟨.CATALOG, c⟩
    let st1 := ensureNode st tblKey (some t)
    let st2 := addReference st1 tblKey schKey
    addReference st2 schKey catKey

/-- Modelled from the spec: a registrar call with validation — an invalid
identity fails fast with a validation error before mutating the registry
(spec section 7). -/
def applyCall (st : MigrationSequencer) (c : RegistrarCall) :
    Except String MigrationSequencer :=
  if callValid c then Except.ok (rawApply st c) else Except.error "invalid object id"

/-- Run a sequence of registrar calls; a call that fails validation leaves
the state untouched. -/
def runCalls : MigrationSequencer → List RegistrarCall → MigrationSequencer
  | st, [] => st
  | st, c :: cs =>
    runCalls (match applyCall st c with
      | Except.ok s' => s'
      | Except.error _ => st) cs

/-- Modelled from the spec: the primitive operation surface of the
sequencer — the two graph primitives shared by every registrar
(spec section 4.3) plus a `generate_steps()` call, used to describe
reachable sequencer states. -/
inductive SeqOp where
  | ensure (k : NodeKey) (name : Option String)
  | ref (src tgt : NodeKey)
  | plan

/-- Apply one primitive operation. -/
def applyOp (st : MigrationSequencer) : SeqOp → MigrationSequencer
  | .ensure k name => ensureNode st k name
  | .ref src tgt => addReference st src tgt
  | .plan => (generateSteps st).2

/-- Run a sequence of primitive operations from a state. -/
def runOps : MigrationSequencer → List SeqOp → MigrationSequencer
  | st, [] => st
  | st, op :: ops => runOps (applyOp st op) ops

/-- The structural invariants of every reachable sequencer state: node
identities are unique, every edge target is a registered node (forward
references materialize placeholders), and the persistent step-number
assignment lists distinct registered nodes. -/
def WF (st : MigrationSequencer) : Prop :=
  (nodeKeys st).Nodup ∧ (∀ e ∈ st.edges, e.2 ∈ nodeKeys st) ∧
    st.stepOrder.Nodup ∧ ∀ k ∈ st.stepOrder, k ∈ nodeKeys st

/-- The traversal only ever appends to the visited list. -/
theorem traverse_extends (U : List NodeKey) (edges : List (NodeKey × NodeKey))
    (stack visited : List NodeKey) :
    ∃ t, traverse U edges stack visited = visited ++ t := by
  induction stack, visited using traverse.induct U edges with
  | case1 visited => exact ⟨[], by simp [traverse]⟩
  | case2 k rest visited h ih =>
    rw [traverse]
    simp only [h, if_true]
    exact ih
  | case3 k rest visited h ih =>
    rw [traverse]
    simp only [h, if_false]
    rcases ih with ⟨t, ht⟩
    exact ⟨k :: t, by simp [ht]⟩

/-- Everything already visited stays in the traversal result. -/
theorem mem_traverse_of_visited (U : List NodeKey) (edges : List (NodeKey × NodeKey))
    (stack visited : List NodeKey) (x : NodeKey) (hx : x ∈ visited) :
    x ∈ traverse U edges stack visited := by
  rcases traverse_extends U edges stack visited with ⟨t, ht⟩
  rw [ht]
  exact List.mem_append_left _ hx

/-- The traversal result is contained in the visited list plus the
universe of node keys. -/
theorem mem_traverse_bound (U : List NodeKey) (edges : List (NodeKey × NodeKey))
    (stack visited : List NodeKey) (x : NodeKey)
    (hx : x ∈ traverse U edges stack visited) : x ∈ visited ∨ x ∈ U := by
  induction stack, visited using traverse.induct U edges with
  | case1 visited =>
    rw [traverse] at hx
    exact Or.inl hx
  | case2 k rest visited h ih =>
    rw [traverse] at hx
    simp only [h, if_true] at hx
    exact ih hx
  | case3 k rest visited h ih =>
    rw [traverse] at hx
    simp only [h, if_false] at hx
    rcases ih hx with hv | hU
    · rcases List.mem_append.mp hv with hv' | hk
      · exact Or.inl hv'
      · have : x = k := by simpa using hk
        subst this
        exact Or.inr (not_not.mp (not_or.mp h).2)
    · exact Or.inr hU

/-- The traversal result has no duplicates when the visited list has
none: each node is visited at most once. -/
theorem traverse_nodup (U : List NodeKey) (edges : List (NodeKey × NodeKey))
    (stack visited : List NodeKey) (hv : visited.Nodup) :
    (traverse U edges stack visited).Nodup := by
  induction stack, visited using traverse.induct U edges with
  | case1 visited =>
    rw [traverse]
    exact hv
  | case2 k rest visited h ih =>
    rw [traverse]
    simp only [h, if_true]
    exact ih hv
  | case3 k rest visited h ih =>
    rw [traverse]
    simp only [h, if_false]
    apply ih
    rw [List.nodup_append]
    refine ⟨hv, List.nodup_singleton k, ?_⟩
    intro a ha hak
    have : a = k := by simpa using hak
    subst this
    exact (not_or.mp h).1 ha

/-- Every element of the work stack that belongs to the universe is
reached by the traversal: full coverage (spec section 4.4, every node is a
root candidate). -/
theorem traverse_covers (U : List NodeKey) (edges : List (NodeKey × NodeKey))
    (stack visited : List NodeKey) (x : NodeKey)
    (hx : x ∈ stack) (hxU : x ∈ U) : x ∈ traverse U edges stack visited := by
  induction stack, visited using traverse.induct U edges with
  | case1 visited => simp at hx
  | case2 k rest visited h ih =>
    rw [traverse]
    simp only [h, if_true]
    rcases List.mem_cons.mp hx with rfl | hx'
    · rcases h with hv | hU
      · exact mem_traverse_of_visited U edges rest visited x hv
      · exact absurd hxU hU
    · exact ih hx'
  | case3 k rest visited h ih =>
    rw [traverse]
    simp only [h, if_false]
    rcases List.mem_cons.mp hx with rfl | hx'
    · exact mem_traverse_of_visited U edges _ _ x (by simp)
    · exact ih (List.mem_append_right _ hx')

/-- One full traversal from all root candidates reaches exactly the
registered nodes, each once, whenever node identities are unique. -/
theorem traversalOrder_perm (st : MigrationSequencer) (h : (nodeKeys st).Nodup) :
    (traversalOrder st).Perm (nodeKeys st) := by
  rw [traversalOrder]
  rw [List.perm_ext_iff_of_nodup (traverse_nodup _ _ _ _ List.nodup_nil) h]
  intro a
  constructor
  · intro ha
    rcases mem_traverse_bound _ _ _ _ _ ha with hv | hU
    · simp at hv
    · exact hU
  · intro ha
    exact traverse_covers _ _ _ _ _ ha ha

theorem stepsFrom_length (st : MigrationSequencer) (i : Nat) (l : List NodeKey) :
    (stepsFrom st i l).length = l.length := by
  induction l generalizing i with
  | nil => simp [stepsFrom]
  | cons k ks ih => simp [stepsFrom, ih]

/-- The identities of the produced steps are exactly the listed keys, in
order. -/
theorem stepsFrom_map_key (st : MigrationSequencer) (i : Nat) (l : List NodeKey) :
    (stepsFrom st i l).map stepKey = l := by
  induction l generalizing i with
  | nil => simp [stepsFrom]
  | cons k ks ih => simp [stepsFrom, stepOf, stepKey, ih]

/-- The produced step numbers are consecutive, starting at `i + 1`. -/
theorem stepsFrom_map_num (st : MigrationSequencer) (i : Nat) (l : List NodeKey) :
    (stepsFrom st i l).map MigrationStep.stepNumber = List.range' (i + 1) l.length := by
  induction l generalizing i with
  | nil => simp [stepsFrom]
  | cons k ks ih => simp [stepsFrom, stepOf, List.range'_succ, ih]

theorem stepsFrom_append (st : MigrationSequencer) (i : Nat) (l1 l2 : List NodeKey) :
    stepsFrom st i (l1 ++ l2) = stepsFrom st i l1 ++ stepsFrom st (i + l1.length) l2 := by
  induction l1 generalizing i with
  | nil => simp [stepsFrom]
  | cons k ks ih =>
    show stepsFrom st i (k :: (ks ++ l2)) = _
    rw [stepsFrom, ih, stepsFrom]
    simp only [List.length_cons, List.cons_append]
    have h : i + 1 + ks.length = i + (ks.length + 1) := by omega
    rw [h]

/-- Identity and step number of produced steps do not depend on the
sequencer's node attributes, only on the key list and start position. -/
theorem stepsFrom_keyNum (st st' : MigrationSequencer) (i : Nat) (l : List NodeKey) :
    (stepsFrom st i l).map (fun s => (stepKey s, s.stepNumber)) =
    (stepsFrom st' i l).map (fun s => (stepKey s, s.stepNumber)) := by
  induction l generalizing i with
  | nil => simp [stepsFrom]
  | cons k ks ih =>
    rw [stepsFrom, stepsFrom, List.map_cons, List.map_cons, ih]
    rfl

/-- In a well-formed state, the step-number assignment produced by one
`generate_steps()` call lists distinct keys. -/
theorem planOrder_nodup (st : MigrationSequencer) (hwf : WF st) :
    (planOrder st).Nodup := by
  rcases hwf with ⟨hn, _, hs, _⟩
  rw [planOrder, List.nodup_append]
  refine ⟨hs, List.Nodup.filter _ (traverse_nodup _ _ _ _ List.nodup_nil), ?_⟩
  intro a ha haf
  have := List.of_mem_filter haf
  simp at this
  exact this ha

/-- In a well-formed state, the step-number assignment covers exactly the
registered nodes. -/
theorem mem_planOrder (st : MigrationSequencer) (hwf : WF st) (x : NodeKey) :
    x ∈ planOrder st ↔ x ∈ nodeKeys st := by
  rcases hwf with ⟨hn, _, _, hsub⟩
  rw [planOrder]
  constructor
  · intro hx
    rcases List.mem_append.mp hx with hx' | hx'
    · exact hsub x hx'
    · have hmem := List.mem_of_mem_filter hx'
      exact ((traversalOrder_perm st hn).mem_iff).mp hmem
  · intro hx
    by_cases hso : x ∈ st.stepOrder
    · exact List.mem_append_left _ hso
    · apply List.mem_append_right
      apply List.mem_filter.mpr
      refine ⟨((traversalOrder_perm st hn).mem_iff).mpr hx, by simpa using hso⟩

/-- In a well-formed state, one `generate_steps()` call assigns each
registered node exactly one step slot. -/
theorem planOrder_perm (st : MigrationSequencer) (hwf : WF st) :
    (planOrder st).Perm (nodeKeys st) := by
  rw [List.perm_ext_iff_of_nodup (planOrder_nodup st hwf) hwf.1]
  exact mem_planOrder st hwf

theorem ensureNode_edges (st : MigrationSequencer) (k : NodeKey) (name : Option String) :
    (ensureNode st k name).edges = st.edges := by
  rw [ensureNode.eq_def]
  split
  · split <;> rfl
  · rfl

theorem ensureNode_stepOrder (st : MigrationSequencer) (k : NodeKey) (name : Option String) :
    (ensureNode st k name).stepOrder = st.stepOrder := by
  rw [ensureNode.eq_def]
  split
  · split <;> rfl
  · rfl

/-- Registering an identity either leaves the key list unchanged (the
identity already existed) or appends exactly the new key. -/
theorem nodeKeys_ensureNode (st : MigrationSequencer) (k : NodeKey) (name : Option String) :
    nodeKeys (ensureNode st k name) = nodeKeys st ∨
      (nodeKeys (ensureNode st k name) = nodeKeys st ++ [k] ∧ ¬ k ∈ nodeKeys st) := by
  rw [ensureNode.eq_def]
  split
  · left
    split
    · rfl
    · simp only [nodeKeys, List.map_map]
      apply List.map_congr_left
      intro a _
      by_cases hak : a.key = k <;> simp [hak]
  · next hf =>
    right
    constructor
    · simp [nodeKeys]
    · intro hk
      rcases List.mem_map.mp hk with ⟨n, hn, hkey⟩
      have := List.find?_eq_none.mp hf n hn
      simp [hkey] at this

/-- The registered identity is present afterwards. -/
theorem mem_nodeKeys_ensureNode (st : MigrationSequencer) (k : NodeKey) (name : Option String) :
    k ∈ nodeKeys (ensureNode st k name) := by
  rw [ensureNode.eq_def]
  split
  · next n hf =>
    have hn := List.mem_of_find?_eq_some hf
    have hk : n.key = k := by simpa using List.find?_some hf
    split
    · exact List.mem_map.mpr ⟨n, hn, hk⟩
    · simp only [nodeKeys, List.map_map]
      apply List.mem_map.mpr
      refine ⟨n, hn, ?_⟩
      by_cases h : n.key = k <;> simp [h, hk]
  · simp [nodeKeys]

/-- When the identity is already registered, re-registration changes
neither the key list nor any discovery sequence number. -/
theorem ensureNode_keySeq (st : MigrationSequencer) (k : NodeKey) (name : Option String)
    (h : k ∈ nodeKeys st) :
    (ensureNode st k name).nodes.map (fun n => (n.key, n.seq)) =
      st.nodes.map (fun n => (n.key, n.seq)) := by
  rw [ensureNode.eq_def]
  split
  · split
    · rfl
    · simp only [List.map_map]
      apply List.map_congr_left
      intro a _
      by_cases hak : a.key = k <;> simp [hak]
  · next hf =>
    exfalso
    rcases List.mem_map.mp h with ⟨n, hn, hkey⟩
    have := List.find?_eq_none.mp hf n hn
    simp [hkey] at this

/-- The recorded display name of every other identity is untouched by a
registration. -/
theorem nodeName_ensureNode_ne (st : MigrationSequencer) (k : NodeKey) (name : Option String)
    (k' : NodeKey) (hne : ¬ k' = k) :
    nodeName (ensureNode st k name) k' = nodeName st k' := by
  have key : ∀ (l : List MigrationNode) (nm : String),
      (l.map (fun n =>
        if n.key = k then { n with objectName := some nm } else n)).find?
          (fun n => decide (n.key = k')) =
        l.find? (fun n => decide (n.key = k')) := by
    intro l nm
    induction l with
    | nil => rfl
    | cons a l ih =>
      rw [List.map_cons]
      by_cases hak : a.key = k
      · have h1 : ¬ a.key = k' := by
          intro hc
          exact hne (by rw [← hc, hak])
        rw [if_pos hak]
        rw [List.find?_cons_of_neg _ (by simpa using h1)]
        rw [List.find?_cons_of_neg _ (by simpa using h1)]
        exact ih
      · rw [if_neg hak]
        by_cases hk' : a.key = k'
        · rw [List.find?_cons_of_pos _ (by simpa using hk'),
            List.find?_cons_of_pos _ (by simpa using hk')]
        · rw [List.find?_cons_of_neg _ (by simpa using hk'),
            List.find?_cons_of_neg _ (by simpa using hk')]
          exact ih
  have hfind : (ensureNode st k name).nodes.find? (fun n => decide (n.key = k')) =
      st.nodes.find? (fun n => decide (n.key = k')) := by
    rw [ensureNode.eq_def]
    split
    · split
      · rfl
      · exact key st.nodes _
    · show (st.nodes ++
          [({ key := k, objectName := name, seq := st.nodes.length } : MigrationNode)]).find?
            (fun n => decide (n.key = k')) = _
      rw [List.find?_append]
      have h2 : ([({ key := k, objectName := name, seq := st.nodes.length } : MigrationNode)].find?
          (fun n => decide (n.key = k'))) = none := by
        rw [List.find?_cons_of_neg _ (by simpa using fun hc => hne hc.symm)]
        rfl
      rw [h2]
      cases st.nodes.find? (fun n => decide (n.key = k')) <;> rfl
  rw [nodeName, nodeName, hfind]

theorem addReference_nodes (st : MigrationSequencer) (src tgt : NodeKey) :
    (addReference st src tgt).nodes = (ensureNode st tgt none).nodes := by
  rw [addReference]
  split <;> rfl

theorem addReference_stepOrder (st : MigrationSequencer) (src tgt : NodeKey) :
    (addReference st src tgt).stepOrder = st.stepOrder := by
  rw [addReference]
  split <;> simp [ensureNode_stepOrder]

/-- References only ever append to the edge list. -/
theorem addReference_edges (st : MigrationSequencer) (src tgt : NodeKey) :
    (addReference st src tgt).edges = st.edges ∨
      (addReference st src tgt).edges = st.edges ++ [(src, tgt)] := by
  rw [addReference]
  split
  · left
    exact ensureNode_edges st tgt none
  · right
    simp [ensureNode_edges]

theorem wf_ensureNode (st : MigrationSequencer) (k : NodeKey) (name : Option String)
    (hwf : WF st) : WF (ensureNode st k name) := by
  rcases hwf with ⟨h1, h2, h3, h4⟩
  have hsub : ∀ x, x ∈ nodeKeys st → x ∈ nodeKeys (ensureNode st k name) := by
    rcases nodeKeys_ensureNode st k name with heq | ⟨heq, _⟩
    · intro x hx
      rw [heq]
      exact hx
    · intro x hx
      rw [heq]
      exact List.mem_append_left _ hx
  refine ⟨?_, ?_, ?_, ?_⟩
  · rcases nodeKeys_ensureNode st k name with heq | ⟨heq, hnk⟩
    · rw [heq]
      exact h1
    · rw [heq, List.nodup_append]
      refine ⟨h1, List.nodup_singleton k, ?_⟩
      intro a ha hak
      have : a = k := by simpa using hak
      subst this
      exact hnk ha
  · rw [ensureNode_edges]
    intro e he
    exact hsub _ (h2 e he)
  · rw [ensureNode_stepOrder]
    exact h3
  · rw [ensureNode_stepOrder]
    intro x hx
    exact hsub _ (h4 x hx)

theorem nodeKeys_addReference (st : MigrationSequencer) (src tgt : NodeKey) :
    nodeKeys (addReference st src tgt) = nodeKeys (ensureNode st tgt none) := by
  rw [nodeKeys, nodeKeys, addReference_nodes]

theorem wf_addReference (st : MigrationSequencer) (src tgt : NodeKey)
    (hwf : WF st) : WF (addReference st src tgt) := by
  have hwf' := wf_ensureNode st tgt none hwf
  rcases hwf' with ⟨h1, h2, h3, h4⟩
  refine ⟨?_, ?_, ?_, ?_⟩
  · rw [nodeKeys_addReference]
    exact h1
  · intro e he
    rw [nodeKeys_addReference]
    rw [ensureNode_edges] at h2
    rcases addReference_edges st src tgt with heq | heq
    · rw [heq] at he
      exact h2 e he
    · rw [heq] at he
      rcases List.mem_append.mp he with he' | he'
      · exact h2 e he'
      · have : e = (src, tgt) := by simpa using he'
        subst this
        exact mem_nodeKeys_ensureNode st tgt none
  · rw [addReference_stepOrder]
    rw [ensureNode_stepOrder] at h3
    exact h3
  · intro x hx
    rw [addReference_stepOrder] at hx
    rw [nodeKeys_addReference]
    apply h4
    rw [ensureNode_stepOrder]
    exact hx

theorem generateSteps_nodes (st : MigrationSequencer) :
    (generateSteps st).2.nodes = st.nodes := rfl

theorem generateSteps_edges (st : MigrationSequencer) :
    (generateSteps st).2.edges = st.edges := rfl

theorem generateSteps_stepOrder (st : MigrationSequencer) :
    (generateSteps st).2.stepOrder = planOrder st := rfl

theorem wf_generateSteps (st : MigrationSequencer) (hwf : WF st) :
    WF (generateSteps st).2 := by
  refine ⟨hwf.1, hwf.2.1, planOrder_nodup st hwf, ?_⟩
  intro x hx
  exact (mem_planOrder st hwf x).mp hx

theorem wf_rawApply (st : MigrationSequencer) (c : RegistrarCall) (hwf : WF st) :
    WF (rawApply st c) := by
  cases c with
  | workflowTask jobId jobName task =>
    rw [rawApply]
    cases task.existingClusterId with
    | some cid =>
      exact wf_addReference _ _ _ (wf_addReference _ _ _
        (wf_ensureNode _ _ _ (wf_ensureNode _ _ _ hwf)))
    | none =>
      exact wf_addReference _ _ _ (wf_ensureNode _ _ _ (wf_ensureNode _ _ _ hwf))
  | cluster cid name => exact wf_ensureNode _ _ _ hwf
  | pipeline pid name => exact wf_ensureNode _ _ _ hwf
  | table cat sch tbl =>
    exact wf_addReference _ _ _ (wf_addReference _ _ _ (wf_ensureNode _ _ _ hwf))

theorem wf_runCalls (st : MigrationSequencer) (cs : List RegistrarCall) (hwf : WF st) :
    WF (runCalls st cs) := by
  induction cs generalizing st with
  | nil => exact hwf
  | cons c cs ih =>
    rw [runCalls]
    rw [applyCall]
    by_cases hv : callValid c = true
    · rw [if_pos hv]
      exact ih _ (wf_rawApply st c hwf)
    · rw [if_neg hv]
      exact ih _ hwf

theorem wf_applyOp (st : MigrationSequencer) (op : SeqOp) (hwf : WF st) :
    WF (applyOp st op) := by
  cases op with
  | ensure k name => exact wf_ensureNode _ _ _ hwf
  | ref src tgt => exact wf_addReference _ _ _ hwf
  | plan => exact wf_generateSteps _ hwf

theorem wf_empty : WF emptySequencer := by
  refine ⟨List.nodup_nil, ?_, List.nodup_nil, ?_⟩ <;> simp [emptySequencer]

theorem wf_runOps (st : MigrationSequencer) (ops : List SeqOp) (hwf : WF st) :
    WF (runOps st ops) := by
  induction ops generalizing st with
  | nil => exact hwf
  | cons op ops ih =>
    rw [runOps]
    exact ih _ (wf_applyOp st op hwf)

theorem rawApply_stepOrder (st : MigrationSequencer) (c : RegistrarCall) :
    (rawApply st c).stepOrder = st.stepOrder := by
  cases c with
  | workflowTask jobId jobName task =>
    rw [rawApply]
    cases task.existingClusterId with
    | some cid =>
      simp [addReference_stepOrder, ensureNode_stepOrder]
    | none =>
      simp [addReference_stepOrder, ensureNode_stepOrder]
  | cluster cid name => exact ensureNode_stepOrder _ _ _
  | pipeline pid name => exact ensureNode_stepOrder _ _ _
  | table cat sch tbl =>
    simp [rawApply, addReference_stepOrder, ensureNode_stepOrder]

/-- Registrar calls never touch the persistent step-number assignment. -/
theorem runCalls_stepOrder (st : MigrationSequencer) (cs : List RegistrarCall) :
    (runCalls st cs).stepOrder = st.stepOrder := by
  induction cs generalizing st with
  | nil => rfl
  | cons c cs ih =>
    rw [runCalls, applyCall]
    by_cases hv : callValid c = true
    · rw [if_pos hv, ih, rawApply_stepOrder]
    · rw [if_neg hv, ih]

theorem generateSteps_fst (st : MigrationSequencer) :
    (generateSteps st).1 = stepsFrom st 0 (planOrder st) := rfl

/-- The identities of a `generate_steps()` output are the plan order. -/
theorem generateSteps_map_key (st : MigrationSequencer) :
    (generateSteps st).1.map stepKey = planOrder st := by
  rw [generateSteps_fst, stepsFrom_map_key]

/-- The step numbers of a `generate_steps()` output are `1, 2, ...`,
consecutively. -/
theorem generateSteps_map_num (st : MigrationSequencer) :
    (generateSteps st).1.map MigrationStep.stepNumber =
      List.range' 1 (generateSteps st).1.length := by
  rw [generateSteps_fst, stepsFrom_map_num, stepsFrom_length]

/-- A non-empty string stays non-empty under right-append. -/
theorem append_ne_empty_left (a b : String) (h : ¬ a = "") : ¬ a ++ b = "" := by
  intro hc
  have h2 := congrArg String.length hc
  rw [String.length_append, String.length_empty] at h2
  have h3 : a.length = 0 := by omega
  apply h
  apply String.ext
  have h4 : a.data.length = 0 := h3
  simpa using List.length_eq_zero.mp h4

/-- No node in the registry carries an empty object id. -/
def nonEmptyIds (st : MigrationSequencer) : Prop :=
  ∀ n ∈ st.nodes, ¬ n.key.objectId = ""

theorem nonEmptyIds_ensureNode (st : MigrationSequencer) (k : NodeKey) (name : Option String)
    (hk : ¬ k.objectId = "") (h : nonEmptyIds st) : nonEmptyIds (ensureNode st k name) := by
  rw [ensureNode.eq_def]
  split
  · split
    · exact h
    · intro n hn
      rcases List.mem_map.mp hn with ⟨m, hm, hupd⟩
      subst hupd
      by_cases hmk : m.key = k
      · simpa [hmk] using hk
      · simpa [hmk] using h m hm
  · intro n hn
    rcases List.mem_append.mp hn with hn' | hn'
    · exact h n hn'
    · have : n = { key := k, objectName := name, seq := st.nodes.length } := by simpa using hn'
      subst this
      exact hk

theorem nonEmptyIds_addReference (st : MigrationSequencer) (src tgt : NodeKey)
    (htgt : ¬ tgt.objectId = "") (h : nonEmptyIds st) :
    nonEmptyIds (addReference st src tgt) := by
  intro n hn
  rw [addReference_nodes] at hn
  exact nonEmptyIds_ensureNode st tgt none htgt h n hn

theorem nonEmptyIds_generateSteps (st : MigrationSequencer) (h : nonEmptyIds st) :
    nonEmptyIds (generateSteps st).2 := h

/-- A validated registrar call only creates nodes with non-empty object
ids. -/
theorem nonEmptyIds_rawApply (st : MigrationSequencer) (c : RegistrarCall)
    (hv : callValid c = true) (h : nonEmptyIds st) : nonEmptyIds (rawApply st c) := by
  cases c with
  | workflowTask jobId jobName task =>
    simp only [callValid, callObjectIds, List.all_eq_true] at hv
    have hjob : ¬ jobId = "" := by
      have := hv jobId (by simp)
      simpa using this
    have htask : ¬ taskNodeId jobId task.taskKey = "" := by
      rw [taskNodeId, String.append_assoc]
      exact append_ne_empty_left _ _ hjob
    rw [rawApply]
    cases hcl : task.existingClusterId with
    | some cid =>
      have hcid : ¬ cid = "" := by
        have := hv cid (by simp [hcl])
        simpa using this
      exact nonEmptyIds_addReference _ _ _ hcid (nonEmptyIds_addReference _ _ _ htask
        (nonEmptyIds_ensureNode _ _ _ htask (nonEmptyIds_ensureNode _ _ _ hjob h)))
    | none =>
      exact nonEmptyIds_addReference _ _ _ htask
        (nonEmptyIds_ensureNode _ _ _ htask (nonEmptyIds_ensureNode _ _ _ hjob h))
  | cluster cid name =>
    simp only [callValid, callObjectIds, List.all_eq_true] at hv
    have hcid : ¬ cid = "" := by
      have := hv cid (by simp)
      simpa using this
    exact nonEmptyIds_ensureNode _ _ _ hcid h
  | pipeline pid name =>
    simp only [callValid, callObjectIds, List.all_eq_true] at hv
    have hpid : ¬ pid = "" := by
      have := hv pid (by simp)
      simpa using this
    exact nonEmptyIds_ensureNode _ _ _ hpid h
  | table cat sch tbl =>
    simp only [callValid, callObjectIds, List.all_eq_true] at hv
    have hcat : ¬ cat = "" := by
      have := hv cat (by simp)
      simpa using this
    have hsch : ¬ cat ++ "." ++ sch = "" := by
      rw [String.append_assoc]
      exact append_ne_empty_left _ _ hcat
    have htbl : ¬ cat ++ "." ++ sch ++ "." ++ tbl = "" := by
      rw [String.append_assoc]
      exact append_ne_empty_left _ _ hsch
    exact nonEmptyIds_addReference _ _ _ hcat
      (nonEmptyIds_addReference _ _ _ hsch (nonEmptyIds_ensureNode _ _ _ htbl h))

theorem nonEmptyIds_runCalls (st : MigrationSequencer) (cs : List RegistrarCall)
    (h : nonEmptyIds st) : nonEmptyIds (runCalls st cs) := by
  induction cs generalizing st with
  | nil => exact h
  | cons c cs ih =>
    rw [runCalls, applyCall]
    by_cases hv : callValid c = true
    · rw [if_pos hv]
      exact ih _ (nonEmptyIds_rawApply st c hv h)
    · rw [if_neg hv]
      exact ih _ h

theorem nonEmptyIds_empty : nonEmptyIds emptySequencer := by
  intro n hn
  simp [emptySequencer] at hn

/-- The display-name lookup only depends on the node list. -/
theorem nodeName_congr (st st' : MigrationSequencer) (k : NodeKey)
    (h : st'.nodes = st.nodes) : nodeName st' k = nodeName st k := by
  rw [nodeName, nodeName, h]

/-- A key registered for the first time gets exactly the supplied name. -/
theorem nodeName_ensureNode_new (st : MigrationSequencer) (k : NodeKey) (name : Option String)
    (h : ¬ k ∈ nodeKeys st) :
    nodeName (ensureNode st k name) k = name := by
  rw [ensureNode.eq_def]
  cases hf : st.nodes.find? (fun n => decide (n.key = k)) with
  | some n =>
    exfalso
    apply h
    have hn := List.mem_of_find?_eq_some hf
    have hk : n.key = k := by simpa using List.find?_some hf
    exact List.mem_map.mpr ⟨n, hn, hk⟩
  | none =>
    rw [nodeName]
    show (match (st.nodes ++
        [({ key := k, objectName := name, seq := st.nodes.length } : MigrationNode)]).find?
          (fun n => decide (n.key = k)) with
      | some n => n.objectName
      | none => none) = name
    rw [List.find?_append, hf]
    rw [List.find?_cons_of_pos _ (by simp)]
    rfl

/-- After an update, the first node found for the updated key carries the
new name. -/
theorem find?_map_update_self (l : List MigrationNode) (k : NodeKey) (nm : String)
    (h : ∃ n ∈ l, n.key = k) :
    ∃ n', (l.map (fun x => if x.key = k then { x with objectName := some nm } else x)).find?
        (fun x => decide (x.key = k)) = some n' ∧ n'.objectName = some nm := by
  induction l with
  | nil => simp at h
  | cons a l ih =>
    rw [List.map_cons]
    by_cases hak : a.key = k
    · refine ⟨{ a with objectName := some nm }, ?_, rfl⟩
      rw [if_pos hak]
      apply List.find?_cons_of_pos
      simpa using hak
    · rw [if_neg hak]
      rcases h with ⟨n, hn, hkey⟩
      rcases List.mem_cons.mp hn with rfl | hn'
      · exact absurd hkey hak
      · rcases ih ⟨n, hn', hkey⟩ with ⟨n', h1, h2⟩
        refine ⟨n', ?_, h2⟩
        rw [List.find?_cons_of_neg _ (by simpa using hak)]
        exact h1

/-- Re-registering an existing key with a new name makes that name the
recorded one: last write wins. -/
theorem nodeName_ensureNode_update (st : MigrationSequencer) (k : NodeKey) (nm : String)
    (h : k ∈ nodeKeys st) :
    nodeName (ensureNode st k (some nm)) k = some nm := by
  rw [ensureNode.eq_def]
  cases hf : st.nodes.find? (fun n => decide (n.key = k)) with
  | none =>
    exfalso
    rcases List.mem_map.mp h with ⟨n, hn, hkey⟩
    have := List.find?_eq_none.mp hf n hn
    simp [hkey] at this
  | some n =>
    rw [nodeName]
    show (match (st.nodes.map (fun x =>
        if x.key = k then { x with objectName := some nm } else x)).find?
          (fun x => decide (x.key = k)) with
      | some n => n.objectName
      | none => none) = some nm
    have hex : ∃ m ∈ st.nodes, m.key = k := by
      rcases List.mem_map.mp h with ⟨m, hm, hkey⟩
      exact ⟨m, hm, hkey⟩
    rcases find?_map_update_self st.nodes k nm hex with ⟨n', h1, h2⟩
    rw [h1]
    exact h2

/-- Every produced step's name is the recorded name of its key. -/
theorem stepsFrom_objectName (st : MigrationSequencer) (i : Nat) (l : List NodeKey) :
    ∀ s ∈ stepsFrom st i l, s.objectName = nodeName st (stepKey s) := by
  induction l generalizing i with
  | nil => simp [stepsFrom]
  | cons k ks ih =>
    intro s hs
    rw [stepsFrom] at hs
    rcases List.mem_cons.mp hs with rfl | hs'
    · rfl
    · exact ih _ s hs'

/-- Produced steps agree between two sequencers whose name lookups agree
away from one key. -/
theorem stepsFrom_mem_of_agree (st st' : MigrationSequencer) (k : NodeKey)
    (hag : ∀ k', ¬ k' = k → nodeName st' k' = nodeName st k')
    (i : Nat) (l : List NodeKey) :
    ∀ s ∈ stepsFrom st' i l, ¬ stepKey s = k → s ∈ stepsFrom st i l := by
  induction l generalizing i with
  | nil => simp [stepsFrom]
  | cons k0 ks ih =>
    intro s hs hsk
    rw [stepsFrom] at hs
    rw [stepsFrom]
    rcases List.mem_cons.mp hs with rfl | hs'
    · have hk0 : ¬ k0 = k := by simpa [stepKey, stepOf] using hsk
      have heq : stepOf st' i k0 = stepOf st i k0 := by
        rw [stepOf, stepOf, hag k0 hk0]
      rw [heq]
      exact List.mem_cons_self _ _
    · exact List.mem_cons_of_mem _ (ih _ s hs' hsk)

/-- In a well-formed state every registered node occurs exactly once in
the produced steps. -/
theorem generateSteps_count_key (st : MigrationSequencer) (hwf : WF st) (x : NodeKey)
    (hx : x ∈ nodeKeys st) :
    ((generateSteps st).1.map stepKey).count x = 1 := by
  rw [generateSteps_map_key]
  have hperm := planOrder_perm st hwf
  rw [hperm.count_eq]
  exact List.count_eq_one_of_mem hwf.1 hx

/-- The plan order only depends on the key list, the edges and the
persistent assignment. -/
theorem planOrder_congr (st st' : MigrationSequencer)
    (hn : nodeKeys st' = nodeKeys st) (he : st'.edges = st.edges)
    (hs : st'.stepOrder = st.stepOrder) : planOrder st' = planOrder st := by
  rw [planOrder, planOrder, traversalOrder, traversalOrder, hn, he, hs]

/-- Modelled from the spec: a non-empty chain of "references"
relationships in the edge store — a direct or transitive reference
(spec section 8 "Cycle termination"). -/
inductive RefPath (edges : List (NodeKey × NodeKey)) : NodeKey → NodeKey → Prop where
  | single {a b : NodeKey} : (a, b) ∈ edges → RefPath edges a b
  | cons {a b c : NodeKey} : (a, b) ∈ edges → RefPath edges b c → RefPath edges a c

/-- The endpoint of a reference chain is an edge target, hence a
registered node in a well-formed state. -/
theorem RefPath.target_mem (edges : List (NodeKey × NodeKey)) (U : List NodeKey)
    (hE : ∀ e ∈ edges, e.2 ∈ U) (a b : NodeKey) (h : RefPath edges a b) : b ∈ U := by
  induction h with
  | single hab => exact hE _ hab
  | cons hab hbc ih => exact ih

end Sequencer

namespace History

/-- A JSON-encodable Python value, as accepted by
`HistoricalEncoder._encode_field_value` in
`databricks/labs/ucx/progress/history.py` (values the source cannot
encode raise `TypeError`/`ValueError` there and are outside this
universe; `pyNone` models Python `None`). -/
inductive PyVal where
  | pyNone
  | pyStr (s : String)
  | pyInt (n : Int)
  | pyBool (b : Bool)
  | pyList (xs : List PyVal)

/-- Minimal JSON string escaping (quote and backslash), standing in for
`json.dumps` string escaping; the escaping details are not observable by
the properties proved here. -/
def jsonEscape (s : String) : String :=
  s.foldl (fun acc c =>
    acc ++ (if c = '"' then "\\\"" else if c = '\\' then "\\\\" else String.singleton c)) ""

mutual

/-- Compact `json.dumps(value, separators=(",", ":"))` on the encodable
values, as used by `HistoricalEncoder._encode_field_value`. -/
def jsonDumps : PyVal → String
  | .pyNone => "null"
  | .pyStr s => "\"" ++ jsonEscape s ++ "\""
  | .pyInt n => toString n
  | .pyBool b => if b then "true" else "false"
  | .pyList xs => "[" ++ jsonDumpsList xs ++ "]"

/-- Comma-joined encoding of a JSON array body. -/
def jsonDumpsList : List PyVal → String
  | [] => ""
  | [x] => jsonDumps x
  | x :: y :: ys => jsonDumps x ++ "," ++ jsonDumpsList (y :: ys)

end

/-- The classification of a field type made by
`HistoricalEncoder._encode_field_value`: `strTy` covers `str` and
`str | None` (returned verbatim), everything else is JSON-encoded. -/
inductive FieldTy where
  | strTy
  | otherTy
deriving DecidableEq, Repr

/-- `dataclasses.asdict(record)`: the record as an ordered mapping from
field name to value. -/
abbrev PyRecord := List (String × PyVal)

/-- Attribute lookup on the record mapping (missing names yield `None`,
which cannot occur for declared fields). -/
def pyLookup (rec : PyRecord) (name : String) : PyVal :=
  match rec.find? (fun kv => kv.1 == name) with
  | some kv => kv.2
  | none => .pyNone

/-- `HistoricalEncoder._encode_field_value`: `None` encodes to `None`;
a `str`-typed field value is returned unchanged; any other value is
JSON-encoded compactly, and an encoding that is a bare JSON string is
unwrapped back to the string itself (the `startswith` branch of the
source — in this value universe exactly the string case). -/
def encodeFieldValue (ftype : FieldTy) (value : PyVal) : Option PyVal :=
  match value with
  | .pyNone => none
  | v =>
    match ftype with
    | .strTy => some v
    | .otherTy =>
      match v with
      | .pyStr s => some (.pyStr s)
      | v => some (.pyStr (jsonDumps v))

/-- The encoder state built by `HistoricalEncoder.__init__`: the job-run
and workspace identifiers, the record class name, the dataclass fields
and their type classification (with the `failures` field already removed,
as in `_get_field_types`), whether a `failures: list[str]` attribute was
present (`failures: str`, which the source JSON-decodes, is not used by
the record types studied here and is not modelled), the id attribute
names, and the ownership function. -/
structure HistoricalEncoder where
  jobRunId : Int
  workspaceId : Int
  objectType : String
  fieldTypes : List (String × FieldTy)
  hasFailuresList : Bool
  idAttributeNames : List String
  owner : PyRecord → String

/-- The `Historical` row produced by the encoder
(`databricks/labs/ucx/progress/install.py`); `data` keeps the Python
typing `dict[str, Any]` (values as encoded). -/
structure Historical where
  workspaceId : Int
  jobRunId : Int
  objectType : String
  objectId : List String
  data : List (String × PyVal)
  failures : List String
  owner : String

/-- The strings of a `list[str]` value (a well-typed `failures` field). -/
def pyStrings : PyVal → List String
  | .pyList xs => xs.filterMap (fun v =>
      match v with
      | .pyStr s => some s
      | _ => none)
  | _ => []

/-- The `encoded_fields` mapping of
`HistoricalEncoder._object_data_and_failures`: every declared field name
with its encoded (`str | None`) value. -/
def encodedFields (enc : HistoricalEncoder) (rec : PyRecord) :
    List (String × Option PyVal) :=
  enc.fieldTypes.map (fun ft => (ft.1, encodeFieldValue ft.2 (pyLookup rec ft.1)))

/-- The `data` dict of `HistoricalEncoder._object_data_and_failures`:
the encoded fields with the `None`-valued entries omitted
(`{k: v for k, v in encoded_fields.items() if v is not None}`). -/
def objectData (enc : HistoricalEncoder) (rec : PyRecord) : List (String × PyVal) :=
  (encodedFields enc rec).filterMap (fun kv =>
    match kv.2 with
    | some v => some (kv.1, v)
    | none => none)

/-- `HistoricalEncoder._object_data_and_failures`: encode every declared
field of the record and keep only the entries whose encoded value is not
`None`; extract the failures list when the record declares one. -/
def objectDataAndFailures (enc : HistoricalEncoder) (rec : PyRecord) :
    List (String × PyVal) × List String :=
  (objectData enc rec,
    if enc.hasFailuresList then pyStrings (pyLookup rec "failures") else [])

/-- `HistoricalEncoder._object_id`: the id attribute values of the
record, which the encoder validated to be strings at construction. -/
def objectIdOf (enc : HistoricalEncoder) (rec : PyRecord) : List String :=
  enc.idAttributeNames.map (fun n =>
    match pyLookup rec n with
    | .pyStr s => s
    | _ => "")

/-- `HistoricalEncoder.to_historical`. -/
def toHistorical (enc : HistoricalEncoder) (rec : PyRecord) : Historical :=
  { workspaceId := enc.workspaceId
    jobRunId := enc.jobRunId
    objectType := enc.objectType
    objectId := objectIdOf enc rec
    data := (objectDataAndFailures enc rec).1
    failures := (objectDataAndFailures enc rec).2
    owner := enc.owner rec }

/-- Is a value either a string or `None`?  Well-typedness of the `str`
and `str | None` annotated fields of a record. -/
def isStrOrNone : PyVal → Bool
  | .pyNone => true
  | .pyStr _ => true
  | _ => false

/-- The record respects the `str`/`str | None` annotations that
`_encode_field_value` trusts. -/
def WellTyped (enc : HistoricalEncoder) (rec : PyRecord) : Prop :=
  ∀ ft ∈ enc.fieldTypes, ft.2 = FieldTy.strTy → isStrOrNone (pyLookup rec ft.1) = true

/-- In a list of pairs with distinct first components, equal keys force
equal pairs. -/
theorem nodup_fst_eq {α β : Type} (l : List (α × β)) (hnd : (l.map Prod.fst).Nodup)
    (p q : α × β) (hp : p ∈ l) (hq : q ∈ l) (h : p.1 = q.1) : p = q := by
  induction l with
  | nil => simp at hp
  | cons a l ih =>
    rw [List.map_cons, List.nodup_cons] at hnd
    rcases List.mem_cons.mp hp with rfl | hp' <;> rcases List.mem_cons.mp hq with rfl | hq'
    · rfl
    · exfalso
      apply hnd.1
      rw [h]
      exact List.mem_map.mpr ⟨q, hq', rfl⟩
    · exfalso
      apply hnd.1
      rw [← h]
      exact List.mem_map.mpr ⟨p, hp', rfl⟩
    · exact ih hnd.2 hp' hq'

/-- Characterization of membership in the historical `data` mapping. -/
theorem mem_data_iff (enc : HistoricalEncoder) (rec : PyRecord) (kv : String × PyVal) :
    kv ∈ (toHistorical enc rec).data ↔
      ∃ ft ∈ enc.fieldTypes, ft.1 = kv.1 ∧
        encodeFieldValue ft.2 (pyLookup rec ft.1) = some kv.2 := by
  show kv ∈ objectData enc rec ↔ _
  rw [objectData, encodedFields]
  simp only [List.mem_filterMap, List.mem_map]
  constructor
  · rintro ⟨a, ⟨ft, hft, rfl⟩, hf⟩
    cases he : encodeFieldValue ft.2 (pyLookup rec ft.1) with
    | none =>
      rw [he] at hf
      cases hf
    | some v =>
      rw [he] at hf
      have hv : (ft.1, v) = kv := by simpa using hf
      refine ⟨ft, hft, ?_, ?_⟩
      · rw [← hv]
      · rw [he, ← hv]
  · rintro ⟨ft, hft, h1, h2⟩
    refine ⟨(ft.1, encodeFieldValue ft.2 (pyLookup rec ft.1)), ⟨ft, hft, rfl⟩, ?_⟩
    rw [h2]
    show some (ft.1, kv.2) = some kv
    rw [h1]

end History

open Sequencer

/-- C1: registering once a job with id `1234` containing one task with
key `test-task` pinned to cluster `cluster-123` makes `generate_steps()`
yield exactly 3 steps; the job occupies step 1 (before its task at
step 2), and the final step is object kind `CLUSTER`, object id
`cluster-123`, step number 3. -/
theorem c1_reference_scenario :
    (generateSteps (runCalls emptySequencer
        [RegistrarCall.workflowTask "1234" (some "test-job")
          ⟨"test-task", some "cluster-123"⟩])).1.length = 3 ∧
    ((generateSteps (runCalls emptySequencer
        [RegistrarCall.workflowTask "1234" (some "test-job")
          ⟨"test-task", some "cluster-123"⟩])).1).map
      (fun s => (s.objectType, s.objectId, s.stepNumber)) =
    [(ObjectKind.JOB, "1234", 1), (ObjectKind.TASK, "1234/test-task", 2),
     (ObjectKind.CLUSTER, "cluster-123", 3)] := by
  constructor <;>
    simp +decide [generateSteps, planOrder, traversalOrder, Sequencer.traverse.eq_def,
      outgoing, nodeKeys, runCalls, applyCall, rawApply, callValid, callObjectIds,
      taskNodeId, emptySequencer, ensureNode, addReference, stepsFrom, stepOf, nodeName]

/-- C2: for every sequence of registrar calls, `generate_steps()` yields
each distinct (object kind, object id) exactly once — the step identities
are a permutation of the duplicate-free registered node identities,
including nodes with no incident edges, since every node is a root
candidate of the traversal. -/
theorem c2_unique_identities (cs : List RegistrarCall) :
    ((generateSteps (runCalls emptySequencer cs)).1.map stepKey).Perm
      (nodeKeys (runCalls emptySequencer cs)) ∧
    (nodeKeys (runCalls emptySequencer cs)).Nodup := by
  have hwf := wf_runCalls emptySequencer cs wf_empty
  refine ⟨?_, hwf.1⟩
  rw [generateSteps_map_key]
  exact planOrder_perm _ hwf

/-- C3: for every sequence of registrar calls, the step numbers of
`generate_steps()` are exactly `1, 2, ..., n` — strictly increasing and
gap-free — and the step identities enumerate the distinct
registered-or-referenced nodes without repetition (a bijection between
`{1..n}` and the node set). -/
theorem c3_step_numbering (cs : List RegistrarCall) :
    (generateSteps (runCalls emptySequencer cs)).1.map MigrationStep.stepNumber =
      List.range' 1 (generateSteps (runCalls emptySequencer cs)).1.length ∧
    ((generateSteps (runCalls emptySequencer cs)).1.map stepKey).Nodup ∧
    ((generateSteps (runCalls emptySequencer cs)).1.map stepKey).Perm
      (nodeKeys (runCalls emptySequencer cs)) := by
  have hwf := wf_runCalls emptySequencer cs wf_empty
  refine ⟨generateSteps_map_num _, ?_, ?_⟩
  · rw [generateSteps_map_key]
    exact planOrder_nodup _ hwf
  · rw [generateSteps_map_key]
    exact planOrder_perm _ hwf

/-- C4: whenever the registered graph contains a reference cycle (two
nodes each reaching the other through directed references, covering
direct and transitive cycles), `generate_steps()` still terminates with
one step per registered node, and each node on the cycle appears exactly
once in its output. -/
theorem c4_cycle_each_node_once (ops : List SeqOp) (a b : NodeKey)
    (hab : RefPath (runOps emptySequencer ops).edges a b)
    (hba : RefPath (runOps emptySequencer ops).edges b a) :
    ((generateSteps (runOps emptySequencer ops)).1.map stepKey).count a = 1 ∧
    ((generateSteps (runOps emptySequencer ops)).1.map stepKey).count b = 1 ∧
    (generateSteps (runOps emptySequencer ops)).1.length =
      (runOps emptySequencer ops).nodes.length := by
  have hwf := wf_runOps emptySequencer ops wf_empty
  have hbmem : b ∈ nodeKeys (runOps emptySequencer ops) :=
    RefPath.target_mem _ _ hwf.2.1 a b hab
  have hamem : a ∈ nodeKeys (runOps emptySequencer ops) :=
    RefPath.target_mem _ _ hwf.2.1 b a hba
  refine ⟨generateSteps_count_key _ hwf a hamem,
    generateSteps_count_key _ hwf b hbmem, ?_⟩
  rw [generateSteps_fst, stepsFrom_length, (planOrder_perm _ hwf).length_eq]
  simp [nodeKeys]

/-- Witness for C4: a concrete two-node cycle `a ↔ b` built with the
graph primitives; both hypotheses hold and the theorem applies. -/
theorem c4_witness :
    RefPath (runOps emptySequencer
        [SeqOp.ensure ⟨ObjectKind.CLUSTER, "a"⟩ none,
         SeqOp.ensure ⟨ObjectKind.CLUSTER, "b"⟩ none,
         SeqOp.ref ⟨ObjectKind.CLUSTER, "a"⟩ ⟨ObjectKind.CLUSTER, "b"⟩,
         SeqOp.ref ⟨ObjectKind.CLUSTER, "b"⟩ ⟨ObjectKind.CLUSTER, "a"⟩]).edges
      ⟨ObjectKind.CLUSTER, "a"⟩ ⟨ObjectKind.CLUSTER, "b"⟩ ∧
    RefPath (runOps emptySequencer
        [SeqOp.ensure ⟨ObjectKind.CLUSTER, "a"⟩ none,
         SeqOp.ensure ⟨ObjectKind.CLUSTER, "b"⟩ none,
         SeqOp.ref ⟨ObjectKind.CLUSTER, "a"⟩ ⟨ObjectKind.CLUSTER, "b"⟩,
         SeqOp.ref ⟨ObjectKind.CLUSTER, "b"⟩ ⟨ObjectKind.CLUSTER, "a"⟩]).edges
      ⟨ObjectKind.CLUSTER, "b"⟩ ⟨ObjectKind.CLUSTER, "a"⟩ ∧
    (((generateSteps (runOps emptySequencer
        [SeqOp.ensure ⟨ObjectKind.CLUSTER, "a"⟩ none,
         SeqOp.ensure ⟨ObjectKind.CLUSTER, "b"⟩ none,
         SeqOp.ref ⟨ObjectKind.CLUSTER, "a"⟩ ⟨ObjectKind.CLUSTER, "b"⟩,
         SeqOp.ref ⟨ObjectKind.CLUSTER, "b"⟩ ⟨ObjectKind.CLUSTER, "a"⟩])).1.map
        stepKey).count ⟨ObjectKind.CLUSTER, "a"⟩ = 1 ∧
      ((generateSteps (runOps emptySequencer
        [SeqOp.ensure ⟨ObjectKind.CLUSTER, "a"⟩ none,
         SeqOp.ensure ⟨ObjectKind.CLUSTER, "b"⟩ none,
         SeqOp.ref ⟨ObjectKind.CLUSTER, "a"⟩ ⟨ObjectKind.CLUSTER, "b"⟩,
         SeqOp.ref ⟨ObjectKind.CLUSTER, "b"⟩ ⟨ObjectKind.CLUSTER, "a"⟩])).1.map
        stepKey).count ⟨ObjectKind.CLUSTER, "b"⟩ = 1 ∧
      (generateSteps (runOps emptySequencer
        [SeqOp.ensure ⟨ObjectKind.CLUSTER, "a"⟩ none,
         SeqOp.ensure ⟨ObjectKind.CLUSTER, "b"⟩ none,
         SeqOp.ref ⟨ObjectKind.CLUSTER, "a"⟩ ⟨ObjectKind.CLUSTER, "b"⟩,
         SeqOp.ref ⟨ObjectKind.CLUSTER, "b"⟩ ⟨ObjectKind.CLUSTER, "a"⟩])).1.length =
      (runOps emptySequencer
        [SeqOp.ensure ⟨ObjectKind.CLUSTER, "a"⟩ none,
         SeqOp.ensure ⟨ObjectKind.CLUSTER, "b"⟩ none,
         SeqOp.ref ⟨ObjectKind.CLUSTER, "a"⟩ ⟨ObjectKind.CLUSTER, "b"⟩,
         SeqOp.ref ⟨ObjectKind.CLUSTER, "b"⟩ ⟨ObjectKind.CLUSTER, "a"⟩]).nodes.length) := by
  have hab : RefPath (runOps emptySequencer
      [SeqOp.ensure ⟨ObjectKind.CLUSTER, "a"⟩ none,
       SeqOp.ensure ⟨ObjectKind.CLUSTER, "b"⟩ none,
       SeqOp.ref ⟨ObjectKind.CLUSTER, "a"⟩ ⟨ObjectKind.CLUSTER, "b"⟩,
       SeqOp.ref ⟨ObjectKind.CLUSTER, "b"⟩ ⟨ObjectKind.CLUSTER, "a"⟩]).edges
      ⟨ObjectKind.CLUSTER, "a"⟩ ⟨ObjectKind.CLUSTER, "b"⟩ :=
    RefPath.single (by decide)
  have hba : RefPath (runOps emptySequencer
      [SeqOp.ensure ⟨ObjectKind.CLUSTER, "a"⟩ none,
       SeqOp.ensure ⟨ObjectKind.CLUSTER, "b"⟩ none,
       SeqOp.ref ⟨ObjectKind.CLUSTER, "a"⟩ ⟨ObjectKind.CLUSTER, "b"⟩,
       SeqOp.ref ⟨ObjectKind.CLUSTER, "b"⟩ ⟨ObjectKind.CLUSTER, "a"⟩]).edges
      ⟨ObjectKind.CLUSTER, "b"⟩ ⟨ObjectKind.CLUSTER, "a"⟩ :=
    RefPath.single (by decide)
  exact ⟨hab, hba, c4_cycle_each_node_once _ _ _ hab hba⟩

/-- C9: `generate_steps()` on a sequencer with no registrations returns
the empty sequence (and, being a total function of the model, raises no
error). -/
theorem c9_empty_graph : (generateSteps emptySequencer).1 = [] := by
  simp [generateSteps, planOrder, traversalOrder, Sequencer.traverse.eq_def, nodeKeys,
    emptySequencer, stepsFrom]

/-- C5: registering an identity that is already present — with the same
or a different name — creates no second node, changes no discovery
sequence number, raises no already-exists error (validated calls always
succeed), changes neither the identities nor the numbering of the
produced steps, leaves every step of another identity untouched, and
resolves a differing supplied name by last-write-wins overwrite. -/
theorem c5_idempotent_reregistration (st : MigrationSequencer) (k : NodeKey)
    (name : Option String) (h : k ∈ nodeKeys st) :
    nodeKeys (ensureNode st k name) = nodeKeys st ∧
    (ensureNode st k name).nodes.map (fun n => (n.key, n.seq)) =
      st.nodes.map (fun n => (n.key, n.seq)) ∧
    (∀ c, callValid c = true → applyCall st c = Except.ok (rawApply st c)) ∧
    ((generateSteps (ensureNode st k name)).1.map (fun s => (stepKey s, s.stepNumber)) =
      (generateSteps st).1.map (fun s => (stepKey s, s.stepNumber))) ∧
    (∀ s ∈ (generateSteps (ensureNode st k name)).1, ¬ stepKey s = k →
      s ∈ (generateSteps st).1) ∧
    (∀ nm, name = some nm → nodeName (ensureNode st k name) k = some nm) := by
  have hkeys : nodeKeys (ensureNode st k name) = nodeKeys st := by
    rcases nodeKeys_ensureNode st k name with heq | ⟨heq, hnk⟩
    · exact heq
    · exact absurd h hnk
  have hpo : planOrder (ensureNode st k name) = planOrder st :=
    planOrder_congr st _ hkeys (ensureNode_edges st k name) (ensureNode_stepOrder st k name)
  refine ⟨hkeys, ensureNode_keySeq st k name h, ?_, ?_, ?_, ?_⟩
  · intro c hv
    rw [applyCall, if_pos hv]
  · rw [generateSteps_fst, generateSteps_fst, hpo]
    exact stepsFrom_keyNum _ _ 0 _
  · intro s hs hsk
    rw [generateSteps_fst, hpo] at hs
    rw [generateSteps_fst]
    exact stepsFrom_mem_of_agree st _ k
      (fun k' hk' => nodeName_ensureNode_ne st k name k' hk') 0 _ s hs hsk
  · intro nm hnm
    subst hnm
    exact nodeName_ensureNode_update st k nm h

/-- The concrete state of the C5 witness: one registered cluster. -/
def c5State : MigrationSequencer :=
  runCalls emptySequencer [RegistrarCall.cluster "c1" (some "a")]

/-- The re-registered identity of the C5 witness. -/
def c5Key : NodeKey := ⟨ObjectKind.CLUSTER, "c1"⟩

/-- Witness for C5: re-registering the already-present cluster `c1` under
the new name `b` satisfies the theorem's hypothesis and conclusion. -/
theorem c5_witness :
    c5Key ∈ nodeKeys c5State ∧
    (nodeKeys (ensureNode c5State c5Key (some "b")) = nodeKeys c5State ∧
      (ensureNode c5State c5Key (some "b")).nodes.map (fun n => (n.key, n.seq)) =
        c5State.nodes.map (fun n => (n.key, n.seq)) ∧
      (∀ c, callValid c = true → applyCall c5State c = Except.ok (rawApply c5State c)) ∧
      ((generateSteps (ensureNode c5State c5Key (some "b"))).1.map
          (fun s => (stepKey s, s.stepNumber)) =
        (generateSteps c5State).1.map (fun s => (stepKey s, s.stepNumber))) ∧
      (∀ s ∈ (generateSteps (ensureNode c5State c5Key (some "b"))).1, ¬ stepKey s = c5Key →
        s ∈ (generateSteps c5State).1) ∧
      (∀ nm, (some "b" : Option String) = some nm →
        nodeName (ensureNode c5State c5Key (some "b")) c5Key = some nm)) := by
  have h : c5Key ∈ nodeKeys c5State := by decide
  exact ⟨h, c5_idempotent_reregistration c5State c5Key (some "b") h⟩

/-- C6: adding a reference to an identity never registered explicitly
silently materializes a placeholder node with no name for it;
`generate_steps()` then yields exactly one step for that identity, and
when an explicit registration later supplies a name before
`generate_steps()` is called, that unique step carries the supplied
name. -/
theorem c6_forward_reference (st : MigrationSequencer) (src tgt : NodeKey) (nm : String)
    (hwf : WF st) (htgt : ¬ tgt ∈ nodeKeys st) :
    nodeName (addReference st src tgt) tgt = none ∧
    tgt ∈ nodeKeys (addReference st src tgt) ∧
    ((generateSteps (addReference st src tgt)).1.map stepKey).count tgt = 1 ∧
    (∀ s ∈ (generateSteps (ensureNode (addReference st src tgt) tgt (some nm))).1,
      stepKey s = tgt → s.objectName = some nm) ∧
    ((generateSteps (ensureNode (addReference st src tgt) tgt (some nm))).1.map
      stepKey).count tgt = 1 := by
  have hwf1 := wf_addReference st src tgt hwf
  have hmem1 : tgt ∈ nodeKeys (addReference st src tgt) := by
    rw [nodeKeys_addReference]
    exact mem_nodeKeys_ensureNode st tgt none
  have hname : nodeName (addReference st src tgt) tgt = none := by
    rw [nodeName_congr (ensureNode st tgt none) (addReference st src tgt) tgt
      (addReference_nodes st src tgt)]
    exact nodeName_ensureNode_new st tgt none htgt
  have hwf2 := wf_ensureNode _ tgt (some nm) hwf1
  have hmem2 : tgt ∈ nodeKeys (ensureNode (addReference st src tgt) tgt (some nm)) :=
    mem_nodeKeys_ensureNode _ tgt (some nm)
  refine ⟨hname, hmem1, generateSteps_count_key _ hwf1 tgt hmem1, ?_,
    generateSteps_count_key _ hwf2 tgt hmem2⟩
  intro s hs hsk
  rw [generateSteps_fst] at hs
  have h1 := stepsFrom_objectName _ 0 _ s hs
  rw [h1, hsk]
  exact nodeName_ensureNode_update _ tgt nm hmem1

/-- The source key of the C6 witness. -/
def c6Src : NodeKey := ⟨ObjectKind.JOB, "j"⟩

/-- The forward-referenced target key of the C6 witness. -/
def c6Tgt : NodeKey := ⟨ObjectKind.CLUSTER, "c"⟩

/-- Witness for C6: on the empty sequencer, referencing the unregistered
cluster `c` satisfies the theorem's hypotheses and conclusion. -/
theorem c6_witness :
    WF emptySequencer ∧ (¬ c6Tgt ∈ nodeKeys emptySequencer) ∧
    (nodeName (addReference emptySequencer c6Src c6Tgt) c6Tgt = none ∧
      c6Tgt ∈ nodeKeys (addReference emptySequencer c6Src c6Tgt) ∧
      ((generateSteps (addReference emptySequencer c6Src c6Tgt)).1.map stepKey).count
        c6Tgt = 1 ∧
      (∀ s ∈ (generateSteps (ensureNode (addReference emptySequencer c6Src c6Tgt) c6Tgt
          (some "n"))).1, stepKey s = c6Tgt → s.objectName = some "n") ∧
      ((generateSteps (ensureNode (addReference emptySequencer c6Src c6Tgt) c6Tgt
          (some "n"))).1.map stepKey).count c6Tgt = 1) := by
  have h1 : WF emptySequencer := wf_empty
  have h2 : ¬ c6Tgt ∈ nodeKeys emptySequencer := by decide
  exact ⟨h1, h2, c6_forward_reference emptySequencer c6Src c6Tgt "n" h1 h2⟩

/-- C7 (amended): calling `generate_steps()`, performing any further
registrations, then calling it again preserves, at each old position,
the previous step's object kind, object id and step number (no
renumbering; the display name of a prefix step may change if a
re-registration updated it), appends only newly discovered nodes, and
continues the gap-free numbering over the whole output. -/
theorem c7_replan_appends (st : MigrationSequencer) (cs : List RegistrarCall) :
    ((generateSteps (runCalls (generateSteps st).2 cs)).1.take
        (generateSteps st).1.length).map (fun s => (stepKey s, s.stepNumber)) =
      (generateSteps st).1.map (fun s => (stepKey s, s.stepNumber)) ∧
    (∀ s ∈ (generateSteps (runCalls (generateSteps st).2 cs)).1.drop
        (generateSteps st).1.length,
      ¬ stepKey s ∈ (generateSteps st).1.map stepKey) ∧
    (generateSteps (runCalls (generateSteps st).2 cs)).1.map MigrationStep.stepNumber =
      List.range' 1 (generateSteps (runCalls (generateSteps st).2 cs)).1.length := by
  have hso : (runCalls (generateSteps st).2 cs).stepOrder = planOrder st := by
    rw [runCalls_stepOrder, generateSteps_stepOrder]
  have hpo2 : planOrder (runCalls (generateSteps st).2 cs) =
      planOrder st ++ (traversalOrder (runCalls (generateSteps st).2 cs)).filter
        (fun k => decide (¬ k ∈ planOrder st)) := by
    rw [planOrder, hso]
  have hlen1 : (generateSteps st).1.length = (planOrder st).length := by
    rw [generateSteps_fst, stepsFrom_length]
  have hout2 : (generateSteps (runCalls (generateSteps st).2 cs)).1 =
      stepsFrom (runCalls (generateSteps st).2 cs) 0 (planOrder st) ++
      stepsFrom (runCalls (generateSteps st).2 cs) (0 + (planOrder st).length)
        ((traversalOrder (runCalls (generateSteps st).2 cs)).filter
          (fun k => decide (¬ k ∈ planOrder st))) := by
    rw [generateSteps_fst, hpo2, stepsFrom_append]
  have hlenA : (planOrder st).length =
      (stepsFrom (runCalls (generateSteps st).2 cs) 0 (planOrder st)).length := by
    rw [stepsFrom_length]
  refine ⟨?_, ?_, generateSteps_map_num _⟩
  · rw [hout2, hlen1, hlenA, List.take_left]
    rw [generateSteps_fst]
    exact stepsFrom_keyNum _ _ 0 _
  · intro s hs
    rw [hout2, hlen1, hlenA, List.drop_left] at hs
    have hkey : stepKey s ∈ (traversalOrder (runCalls (generateSteps st).2 cs)).filter
        (fun k => decide (¬ k ∈ planOrder st)) := by
      have hmap := List.mem_map_of_mem stepKey hs
      rw [stepsFrom_map_key] at hmap
      exact hmap
    have hnot := List.of_mem_filter hkey
    rw [generateSteps_map_key]
    simpa using hnot

/-- Counterexample for C7 as stated: register cluster `c1` named `a`,
plan, re-register it named `b`, plan again — the second output's prefix
is not the first output unchanged, because the step now carries the
updated name `b`. -/
theorem c7_prefix_not_unchanged :
    ¬ (((generateSteps (runCalls (generateSteps (runCalls emptySequencer
          [RegistrarCall.cluster "c1" (some "a")])).2
          [RegistrarCall.cluster "c1" (some "b")])).1).take
        ((generateSteps (runCalls emptySequencer
          [RegistrarCall.cluster "c1" (some "a")])).1.length)
      = (generateSteps (runCalls emptySequencer
          [RegistrarCall.cluster "c1" (some "a")])).1) := by
  simp +decide [generateSteps, planOrder, traversalOrder, Sequencer.traverse.eq_def,
    outgoing, nodeKeys, runCalls, applyCall, rawApply, callValid, callObjectIds,
    emptySequencer, ensureNode, addReference, stepsFrom, stepOf, nodeName]

/-- C8: a registrar call supplying an empty object id fails fast with a
validation error, leaving the registry unmutated, and consequently no
reachable sequencer state ever contains a node with an empty object id
(object kinds are an enumerated tag and cannot be malformed). -/
theorem c8_invalid_identity_rejected (st : MigrationSequencer) (c : RegistrarCall)
    (cs : List RegistrarCall) (h : "" ∈ callObjectIds c) :
    applyCall st c = Except.error "invalid object id" ∧
    runCalls st [c] = st ∧
    (∀ n ∈ (runCalls emptySequencer cs).nodes, ¬ n.key.objectId = "") := by
  have hval : ¬ callValid c = true := by
    intro ht
    rw [callValid, List.all_eq_true] at ht
    have := ht "" h
    simp at this
  refine ⟨?_, ?_, nonEmptyIds_runCalls emptySequencer cs nonEmptyIds_empty⟩
  · rw [applyCall, if_neg hval]
  · rw [runCalls, applyCall, if_neg hval]
    rfl

/-- Witness for C8: the cluster registrar called with the empty id. -/
theorem c8_witness :
    "" ∈ callObjectIds (RegistrarCall.cluster "" none) ∧
    (applyCall emptySequencer (RegistrarCall.cluster "" none) =
        Except.error "invalid object id" ∧
      runCalls emptySequencer [RegistrarCall.cluster "" none] = emptySequencer ∧
      (∀ n ∈ (runCalls emptySequencer []).nodes, ¬ n.key.objectId = "")) := by
  have h : "" ∈ callObjectIds (RegistrarCall.cluster "" none) := by decide
  exact ⟨h, c8_invalid_identity_rejected emptySequencer (RegistrarCall.cluster "" none) [] h⟩

/-- C10: for every well-typed record accepted by
`HistoricalEncoder.to_historical`, the returned `data` mapping has no
entry for a field whose encoded value is `None` — such fields are omitted
entirely — and every value present in the mapping is a string. -/
theorem c10_data_omits_none_and_is_strings (enc : History.HistoricalEncoder)
    (rec : History.PyRecord) (hwt : History.WellTyped enc rec)
    (hnd : (enc.fieldTypes.map Prod.fst).Nodup) :
    (∀ ft ∈ enc.fieldTypes,
        History.encodeFieldValue ft.2 (History.pyLookup rec ft.1) = none →
        ∀ kv ∈ (History.toHistorical enc rec).data, ¬ kv.1 = ft.1) ∧
    (∀ kv ∈ (History.toHistorical enc rec).data, ∃ s, kv.2 = History.PyVal.pyStr s) := by
  constructor
  · intro ft hft hnone kv hkv hkk
    rcases (History.mem_data_iff enc rec kv).mp hkv with ⟨ft', hft', h1, h2⟩
    have hsame : ft' = ft := by
      apply History.nodup_fst_eq enc.fieldTypes hnd ft' ft hft' hft
      rw [h1, hkk]
    rw [hsame, hnone] at h2
    cases h2
  · intro kv hkv
    rcases (History.mem_data_iff enc rec kv).mp hkv with ⟨ft', hft', h1, h2⟩
    cases hty : ft'.2 with
    | strTy =>
      have hstr := hwt ft' hft' hty
      rw [hty] at h2
      cases hv : History.pyLookup rec ft'.1 with
      | pyNone =>
        rw [hv] at h2
        cases h2
      | pyStr s =>
        rw [hv] at h2
        have : some (History.PyVal.pyStr s) = some kv.2 := h2
        exact ⟨s, by injection this with h3; rw [← h3]⟩
      | pyInt n =>
        rw [hv] at hstr
        cases hstr
      | pyBool b =>
        rw [hv] at hstr
        cases hstr
      | pyList xs =>
        rw [hv] at hstr
        cases hstr
    | otherTy =>
      rw [hty] at h2
      cases hv : History.pyLookup rec ft'.1 with
      | pyNone =>
        rw [hv] at h2
        cases h2
      | pyStr s =>
        rw [hv] at h2
        exact ⟨s, by injection h2 with h3; rw [← h3]⟩
      | pyInt n =>
        rw [hv] at h2
        refine ⟨History.jsonDumps (History.PyVal.pyInt n), ?_⟩
        injection h2 with h3
        rw [← h3]
      | pyBool b =>
        rw [hv] at h2
        refine ⟨History.jsonDumps (History.PyVal.pyBool b), ?_⟩
        injection h2 with h3
        rw [← h3]
      | pyList xs =>
        rw [hv] at h2
        refine ⟨History.jsonDumps (History.PyVal.pyList xs), ?_⟩
        injection h2 with h3
        rw [← h3]

/-- The encoder of the C10 witness: a record class with a `str` field
`a` and an optional non-string field `b`. -/
def c10Enc : History.HistoricalEncoder :=
  { jobRunId := 1, workspaceId := 2, objectType := "Thing",
    fieldTypes := [("a", History.FieldTy.strTy), ("b", History.FieldTy.otherTy)],
    hasFailuresList := false, idAttributeNames := ["a"], owner := fun _ => "me" }

/-- The record of the C10 witness: field `a` holds a string, field `b`
holds `None` and must be omitted from the data mapping. -/
def c10Rec : History.PyRecord :=
  [("a", History.PyVal.pyStr "x"), ("b", History.PyVal.pyNone)]

/-- Witness for C10: the concrete encoder and record satisfy the
hypotheses and the theorem applies. -/
theorem c10_witness :
    History.WellTyped c10Enc c10Rec ∧
    (c10Enc.fieldTypes.map Prod.fst).Nodup ∧
    ((∀ ft ∈ c10Enc.fieldTypes,
        History.encodeFieldValue ft.2 (History.pyLookup c10Rec ft.1) = none →
        ∀ kv ∈ (History.toHistorical c10Enc c10Rec).data, ¬ kv.1 = ft.1) ∧
      (∀ kv ∈ (History.toHistorical c10Enc c10Rec).data,
        ∃ s, kv.2 = History.PyVal.pyStr s)) := by
  have h1 : History.WellTyped c10Enc c10Rec := by
    intro ft hft hty
    simp [c10Enc] at hft
    rcases hft with h | h
    · subst h
      rfl
    · subst h
      cases hty
  have h2 : (c10Enc.fieldTypes.map Prod.fst).Nodup := by
    simp [c10Enc]
  exact ⟨h1, h2, c10_data_omits_none_and_is_strings c10Enc c10Rec h1 h2⟩
